import Mathlib

/-
  Shallow embedding of the google-photos-preprocessor pipeline
  (src/processor.py, src/main.py, src/database.py) and verification of
  its specification claims.

  Machine integers are modelled as Nat/Int. Filesystem and subprocess
  effects are modelled by explicit state passing (the tracking store as a
  list of records) and an event trace; the external transformation tool
  is an oracle `ok : Nat → Bool` giving the exit status of each batch.
-/

namespace GPP

/-- A candidate file produced by the scanner: `(relative_path, full_path)`. -/
structure FInfo where
  rel : String
  full : String
  deriving DecidableEq, Repr

/-! ### Python `pathlib` name/stem/suffix semantics

`Path(relative_path).stem` / `.suffix` operate on the final path
component (`name`); `suffix` is `name[i:]` where `i = name.rfind('.')`
if `0 < i < len(name) - 1`, else the empty string. -/

/-- Split a character list on a separator character (the character-level
semantics of splitting a path string on `/`). -/
def splitOnChar (c : Char) : List Char → List (List Char)
  | [] => [[]]
  | a :: rest =>
    match splitOnChar c rest with
    | [] => [[a]]
    | g :: gs => if a = c then [] :: g :: gs else (a :: g) :: gs

/-- ASCII lower-casing, character by character (Python `str.lower` on the
names arising here). -/
def strLower (s : String) : String := String.mk (s.data.map Char.toLower)

/-- The final component of a `/`-separated relative path (Python `Path.name`). -/
def pathName (s : String) : String :=
  String.mk ((splitOnChar '/' s.data).getLastD [])

/-- Index of the last `.` in a name (Python `str.rfind('.')`), if any. -/
def lastDotIndex (name : String) : Option Nat :=
  let cs := name.toList
  let j := cs.reverse.indexOf '.'
  if j < cs.length then some (cs.length - 1 - j) else none

/-- Python `Path.stem`: the name without its last suffix. -/
def pyStem (name : String) : String :=
  match lastDotIndex name with
  | some i => if 0 < i ∧ i < name.toList.length - 1 then String.mk (name.toList.take i) else name
  | none => name

/-- Python `Path.suffix`: the last extension of the name, dot included. -/
def pySuffix (name : String) : String :=
  match lastDotIndex name with
  | some i => if 0 < i ∧ i < name.toList.length - 1 then String.mk (name.toList.drop i) else ""
  | none => ""

/-- Grouping key of a candidate file: `path_obj.stem.lower()`. -/
def stemKey (f : FInfo) : String :=
  strLower (pyStem (pathName f.rel))

/-- Normalized extension of a candidate file: `path_obj.suffix.lower()`. -/
def extKey (f : FInfo) : String :=
  strLower (pySuffix (pathName f.rel))

/-- The directory component of a relative path (`os.path.dirname`). -/
def relDir (s : String) : String :=
  String.intercalate "/" (((splitOnChar '/' s.data).dropLast).map String.mk)

/-! ### Extension classes (processor.py, `process_files`) -/

def photo_exts : List String :=
  [".jpg", ".jpeg", ".png", ".gif", ".bmp", ".tiff", ".tif", ".webp", ".heic", ".heif"]

def video_exts : List String :=
  [".mp4", ".mov", ".avi", ".mkv", ".flv", ".wmv", ".m4v", ".3gp", ".webm", ".mts", ".m2ts"]

/-- Source: `is_pair = (ext1 in photo_exts and ext2 in video_exts) or
(ext1 in video_exts and ext2 in photo_exts)`. -/
def is_pair (ext1 ext2 : String) : Bool :=
  (photo_exts.contains ext1 && video_exts.contains ext2) ||
  (video_exts.contains ext1 && photo_exts.contains ext2)

/-! ### Grouping by basename (processor.py lines 169-176)

`basename_groups` is a `defaultdict(list)` keyed by the lower-cased stem;
Python dictionaries preserve first-insertion key order, so the grouping is
modelled as an association list extended in key order. Each group entry
stores `(relative_path, full_path, ext)`; here the `(rel, full)` pair is
an `FInfo` and the entry is `FInfo × String`. -/

abbrev GEntry := FInfo × String

/-- Append `e` to the group keyed `k`, creating the group at the end if new. -/
def insertGroup : List (String × List GEntry) → String → GEntry → List (String × List GEntry)
  | [], k, e => [(k, [e])]
  | (k0, es) :: rest, k, e =>
    if k0 = k then (k0, es ++ [e]) :: rest
    else (k0, es) :: insertGroup rest k e

/-- Source: `basename_groups[basename].append((relative_path, full_path, ext))` over all files. -/
def groupByBasename (files : List FInfo) : List (String × List GEntry) :=
  files.foldl (fun gs f => insertGroup gs (stemKey f) (f, extKey f)) []

/-! ### Pair / single classification (processor.py lines 178-199) -/

/-- One step of the classification loop over `basename_groups.items()`. -/
def classifyStep (acc : List (FInfo × FInfo) × List FInfo) (g : String × List GEntry) :
    List (FInfo × FInfo) × List FInfo :=
  match g.2 with
  | [e1, e2] =>
    if is_pair e1.2 e2.2 then
      if video_exts.contains e1.2 then
        (acc.1 ++ [(e2.1, e1.1)], acc.2)
      else
        (acc.1 ++ [(e1.1, e2.1)], acc.2)
    else
      (acc.1, acc.2 ++ [e1.1, e2.1])
  | es => (acc.1, acc.2 ++ es.map (·.1))

/-- The classification loop: returns `(pairs, singles)`. -/
def classifyGroups (gs : List (String × List GEntry)) :
    List (FInfo × FInfo) × List FInfo :=
  gs.foldl classifyStep ([], [])

/-- Grouping phase of `process_files`: candidate files to `(pairs, singles)`. -/
def groupFiles (files : List FInfo) : List (FInfo × FInfo) × List FInfo :=
  classifyGroups (groupByBasename files)

/-! ### Batching (processor.py lines 203-228) -/

def BATCH_SIZE : Nat := 100

structure BatchState where
  batches : List (List FInfo)
  current : List FInfo
  count : Nat
  deriving Repr

/-- Loop body for `for photo, video in pairs`: flush a full batch, then
`current_batch.extend([photo, video])`, counting the pair as one unit. -/
def addPair (st : BatchState) (pv : FInfo × FInfo) : BatchState :=
  let st := if st.count ≥ BATCH_SIZE then ⟨st.batches ++ [st.current], [], 0⟩ else st
  ⟨st.batches, st.current ++ [pv.1, pv.2], st.count + 1⟩

/-- Loop body for `for single in singles`: flush a full batch, then append. -/
def addSingle (st : BatchState) (s : FInfo) : BatchState :=
  let st := if st.count ≥ BATCH_SIZE then ⟨st.batches ++ [st.current], [], 0⟩ else st
  ⟨st.batches, st.current ++ [s], st.count + 1⟩

/-- The batch-building phase: pairs first, then singles, then the trailing
non-empty `current_batch` is appended. -/
def makeBatches (pairs : List (FInfo × FInfo)) (singles : List FInfo) :
    List (List FInfo) :=
  let st : BatchState := ⟨[], [], 0⟩
  let st := pairs.foldl addPair st
  let st := singles.foldl addSingle st
  if st.current.isEmpty then st.batches else st.batches ++ [st.current]

/-- Scheduling phase of `process_files`: candidate files to batches of files. -/
def scheduleBatches (files : List FInfo) : List (List FInfo) :=
  let ps := groupFiles files
  makeBatches ps.1 ps.2

/-! ### Unit-level view of the scheduler

Each Grouping Unit contributes its member files as one block: a Pair the
two-element block `[photo, video]`, a Single the one-element block `[s]`.
The code's batches are the flattenings of the unit-level batches. -/

/-- The scheduler's input as a list of Grouping Units (file blocks). -/
def unitsOf (pairs : List (FInfo × FInfo)) (singles : List FInfo) :
    List (List FInfo) :=
  pairs.map (fun pv => [pv.1, pv.2]) ++ singles.map (fun s => [s])

structure UState where
  batches : List (List (List FInfo))
  current : List (List FInfo)
  count : Nat
  deriving Repr

/-- Unit-level loop body: same flush condition and counting as the code. -/
def addUnit (st : UState) (u : List FInfo) : UState :=
  let st := if st.count ≥ BATCH_SIZE then ⟨st.batches ++ [st.current], [], 0⟩ else st
  ⟨st.batches, st.current ++ [u], st.count + 1⟩

/-- Unit-level batching: the batches as sequences of Grouping Units. -/
def makeUnitBatches (units : List (List FInfo)) : List (List (List FInfo)) :=
  let st : UState := ⟨[], [], 0⟩
  let st := units.foldl addUnit st
  if st.current.isEmpty then st.batches else st.batches ++ [st.current]

/-! ### Tracking store (database.py)

A store state is the list of rows of `processed_files` in rowid order:
`(relative_path, processed_at)`, with `relative_path` unique. `INSERT OR
REPLACE` deletes any conflicting row and appends a fresh one whose
`processed_at` defaults to the current time. -/

abbrev DBState := List (String × Nat)

/-- Existence check by exact relative path (`is_processed`). -/
def is_processed (recs : DBState) (p : String) : Bool :=
  recs.any (fun r => r.1 == p)

/-- One `INSERT OR REPLACE INTO processed_files (relative_path) VALUES (?)`. -/
def upsertOne (recs : DBState) (p : String) (now : Nat) : DBState :=
  recs.filter (fun r => r.1 != p) ++ [(p, now)]

/-- Bulk upsert via `executemany`, in list order (`add_processed`). -/
def add_processed (recs : DBState) (paths : List String) (now : Nat) : DBState :=
  paths.foldl (fun r p => upsertOne r p now) recs

/-! ### Scanner (processor.py, `scan_source_directory`)

The `find` traversal is a filesystem effect; its surviving output is
modelled as the list of discovered full paths together with the partial
relative-path computation `rel? : String → Option String`
(`os.path.relpath`, `none` on `ValueError`). The scanner skips files whose
relative path cannot be computed and files already tracked. -/

def scan_source_directory (found : List String) (rel? : String → Option String)
    (recs : DBState) : List FInfo :=
  found.filterMap (fun fp =>
    match rel? fp with
    | none => none
    | some r => if is_processed recs r then none else some ⟨r, fp⟩)

/-! ### Batch executor and pipeline control flow
(processor.py `process_files` lines 230-259, main.py `run_processor`)

The external tool's exit status for batch `i` is the oracle `ok i`;
filesystem/subprocess actions are recorded as an event trace. On a failing
batch the `finally` block still removes the staging area, then the
exception aborts the run: remaining batches and the retention sweep
(`cleanup_old_targets`) are not reached. -/

inductive Event where
  | createTemp (i : Nat)
  | execTool (i : Nat) (ok : Bool)
  | record (paths : List String)
  | cleanupTemp (i : Nat)
  | sweep
  deriving DecidableEq, Repr

/-- The batch loop of `process_files`, followed by `cleanup_old_targets`.
Returns the final store, `processed_count`, and the event trace. -/
def execLoop (ok : Nat → Bool) (now : Nat) :
    Nat → DBState → List (List FInfo) → DBState × Nat × List Event
  | _, recs, [] => (recs, 0, [Event.sweep])
  | i, recs, b :: rest =>
    if ok i then
      let paths := b.map (·.rel)
      let recs' := if paths.isEmpty then recs else add_processed recs paths now
      let out := execLoop ok now (i + 1) recs' rest
      (out.1, b.length + out.2.1,
        [Event.createTemp i, Event.execTool i true] ++
        (if paths.isEmpty then [] else [Event.record paths]) ++
        [Event.cleanupTemp i] ++ out.2.2)
    else
      (recs, 0, [Event.createTemp i, Event.execTool i false, Event.cleanupTemp i])

/-- Model of `process_files`: early return on an empty candidate list, otherwise
group, schedule, execute the batches and sweep. -/
def process_files (ok : Nat → Bool) (now : Nat) (files : List FInfo)
    (recs : DBState) : DBState × Nat × List Event :=
  if files.isEmpty then (recs, 0, [])
  else execLoop ok now 0 recs (scheduleBatches files)

/-- Model of `run_processor` after the scan: `process_files` is called only when the
scan yielded candidates. -/
def run_processor (ok : Nat → Bool) (now : Nat) (files : List FInfo)
    (recs : DBState) : DBState × Nat × List Event :=
  if files.isEmpty then (recs, 0, [])
  else process_files ok now files recs

/-! ### Configuration validation (main.py, `load_config` lines 41-50) -/

/-- The scan/retention validation of `load_config`: returns the effective
`(scan_days, target_retention_days)` or the `ValueError` message. -/
def validateRetention (scanDays retentionDays : Int) : Except String (Int × Int) :=
  if scanDays = 0 then Except.ok (scanDays, 0)
  else if retentionDays > scanDays then
    Except.error "TARGET_RETENTION_DAYS cannot exceed SCAN_DAYS"
  else Except.ok (scanDays, retentionDays)

/-! ### Staging-area naming (processor.py, `create_temp_symlinks` lines 107-111)

`temp_dir = f"/tmp/gp_processor_{int(time.time())}"`: the name is a pure
function of the whole-second timestamp — no sub-second component and no
randomness enters the name. -/

/-- The staging directory name chosen for a run whose `int(time.time())`
is `t`. -/
def tempDirName (t : Nat) : String :=
  "/tmp/gp_processor_" ++ toString t

/-! ### Derived definitions used by the verification -/

/-- The set of tracked relative paths (the `relative_path` column). -/
def pathsOf (recs : DBState) : List String := recs.map Prod.fst

/-- The database effect of recording one successful batch. -/
def recordBatch (now : Nat) (r : DBState) (b : List FInfo) : DBState :=
  if (b.map (·.rel)).isEmpty then r else add_processed r (b.map (·.rel)) now

theorem mem_batchEvents {x : Event} {i : Nat} {paths : List String} {tail : List Event} :
    x ∈ [Event.createTemp i, Event.execTool i true] ++
        (if paths.isEmpty then [] else [Event.record paths]) ++
        [Event.cleanupTemp i] ++ tail ↔
    x = Event.createTemp i ∨ x = Event.execTool i true ∨
    (paths.isEmpty = false ∧ x = Event.record paths) ∨
    x = Event.cleanupTemp i ∨ x ∈ tail := by
  by_cases hE : paths.isEmpty
  · simp [hE]
  · have hE' : paths.isEmpty = false := by simpa using hE
    simp [hE']

/-- Invariant maintained by the batch-building fold. -/
structure UInv (st : UState) : Prop where
  full : ∀ b ∈ st.batches, b.length = BATCH_SIZE
  cnt : st.count = st.current.length
  le : st.count ≤ BATCH_SIZE
  emp : st.current = [] → st.batches = []

/-- The final batch list assembled from a fold state. -/
def finishU (st : UState) : List (List (List FInfo)) :=
  if st.current.isEmpty then st.batches else st.batches ++ [st.current]

/-- Simulation between the file-level fold state of the code and the
unit-level fold state. -/
structure SimInv (fst : BatchState) (ust : UState) : Prop where
  batches : fst.batches = ust.batches.map List.flatten
  current : fst.current = ust.current.flatten
  count : fst.count = ust.count
  ne : ∀ u ∈ ust.current, u ≠ []

/-- The final batch list assembled from a file-level fold state. -/
def finishB (st : BatchState) : List (List FInfo) :=
  if st.current.isEmpty then st.batches else st.batches ++ [st.current]

/-- Invariant of the basename-grouping fold. -/
structure GInv (gs : List (String × List GEntry)) : Prop where
  keyed : ∀ p ∈ gs, ∀ e ∈ p.2, stemKey e.1 = p.1 ∧ e.2 = extKey e.1
  nodup : (gs.map Prod.fst).Nodup
  ne : ∀ p ∈ gs, p.2 ≠ []

/-- The Pair that a bucket contributes, if any. -/
def pairOf (g : String × List GEntry) : Option (FInfo × FInfo) :=
  match g.2 with
  | [e1, e2] =>
    if is_pair e1.2 e2.2 then
      if video_exts.contains e1.2 then some (e2.1, e1.1) else some (e1.1, e2.1)
    else none
  | _ => none

/-- The Singles that a bucket contributes. -/
def singlesOf (g : String × List GEntry) : List FInfo :=
  match g.2 with
  | [e1, e2] => if is_pair e1.2 e2.2 then [] else [e1.1, e2.1]
  | es => es.map (·.1)

/-! ### Lemmas and claim theorems -/

theorem pathsOf_upsertOne (recs : DBState) (p : String) (now : Nat) :
    pathsOf (upsertOne recs p now) = (pathsOf recs).filter (fun q => q != p) ++ [p] := by
  simp [pathsOf, upsertOne, List.filter_map]
  rfl

theorem nodup_pathsOf_upsertOne (recs : DBState) (p : String) (now : Nat)
    (h : (pathsOf recs).Nodup) : (pathsOf (upsertOne recs p now)).Nodup := by
  rw [pathsOf_upsertOne]
  refine List.Nodup.append (h.filter _) (List.nodup_singleton p) ?_
  intro q hq hq'
  simp at hq'
  subst hq'
  have := List.of_mem_filter hq
  simp at this

theorem filter_upsertOne_self (recs : DBState) (p : String) (now : Nat) :
    (upsertOne recs p now).filter (fun r => r.1 == p) = [(p, now)] := by
  simp [upsertOne, List.filter_append, List.filter_filter]

theorem filter_upsertOne_other (recs : DBState) (p q : String) (now : Nat)
    (h : q ≠ p) :
    (upsertOne recs p now).filter (fun r => r.1 == q) = recs.filter (fun r => r.1 == q) := by
  have hpq : (p == q) = false := by
    simp [Ne.symm h]
  simp [upsertOne, List.filter_append, List.filter_filter, hpq]
  refine List.filter_congr ?_
  intro r hr
  by_cases hc : r.1 = q
  · simp [hc, Ne.symm h]
    exact h
  · simp [hc]

theorem add_processed_cons (recs : DBState) (p : String) (ps : List String) (now : Nat) :
    add_processed recs (p :: ps) now = add_processed (upsertOne recs p now) ps now := rfl

theorem filter_add_processed_nonmem (ps : List String) :
    ∀ (recs : DBState) (p : String) (now : Nat), p ∉ ps →
    (add_processed recs ps now).filter (fun r => r.1 == p) = recs.filter (fun r => r.1 == p) := by
  induction ps with
  | nil => intro recs p now _; rfl
  | cons q ps ih =>
    intro recs p now hp
    rw [add_processed_cons, ih _ _ _ (fun h => hp (List.mem_cons_of_mem _ h)),
      filter_upsertOne_other]
    exact fun h => hp (h ▸ List.mem_cons_self _ _)

theorem filter_add_processed_mem (ps : List String) :
    ∀ (recs : DBState) (p : String) (now : Nat), p ∈ ps →
    (add_processed recs ps now).filter (fun r => r.1 == p) = [(p, now)] := by
  induction ps with
  | nil => intro _ _ _ h; cases h
  | cons q ps ih =>
    intro recs p now hp
    rw [add_processed_cons]
    by_cases hmem : p ∈ ps
    · exact ih _ _ _ hmem
    · have hq : p = q := by
        rcases List.mem_cons.mp hp with h | h
        · exact h
        · exact absurd h hmem
      subst hq
      rw [filter_add_processed_nonmem _ _ _ _ hmem, filter_upsertOne_self]

theorem nodup_pathsOf_add_processed (ps : List String) :
    ∀ (recs : DBState) (now : Nat), (pathsOf recs).Nodup →
    (pathsOf (add_processed recs ps now)).Nodup := by
  induction ps with
  | nil => intro _ _ h; exact h
  | cons q ps ih =>
    intro recs now h
    exact ih _ _ (nodup_pathsOf_upsertOne _ _ _ h)

theorem mem_pathsOf_upsertOne (recs : DBState) (p q : String) (now : Nat) :
    q ∈ pathsOf (upsertOne recs p now) ↔ q ∈ pathsOf recs ∨ q = p := by
  rw [pathsOf_upsertOne]
  simp [List.mem_filter]
  constructor
  · rintro (⟨h, _⟩ | h)
    · exact Or.inl h
    · exact Or.inr h
  · rintro (h | h)
    · by_cases hq : q = p
      · exact Or.inr hq
      · exact Or.inl ⟨h, hq⟩
    · exact Or.inr h

theorem mem_pathsOf_add_processed (ps : List String) :
    ∀ (recs : DBState) (q : String) (now : Nat),
    q ∈ pathsOf (add_processed recs ps now) ↔ q ∈ pathsOf recs ∨ q ∈ ps := by
  induction ps with
  | nil => intro recs q now; simp [add_processed]
  | cons r ps ih =>
    intro recs q now
    rw [add_processed_cons, ih, mem_pathsOf_upsertOne]
    simp [or_assoc]

theorem execLoop_allok_events (ok : Nat → Bool) (now : Nat)
    (hok : ∀ i, ok i = true) :
    ∀ (bs : List (List FInfo)) (i : Nat) (recs : DBState),
    ∃ pre, (execLoop ok now i recs bs).2.2 = pre ++ [Event.sweep] ∧
      Event.sweep ∉ pre := by
  intro bs
  induction bs with
  | nil => intro i recs; exact ⟨[], rfl, by simp⟩
  | cons b rest ih =>
    intro i recs
    obtain ⟨pre, hpre, hmem⟩ := ih (i + 1)
      (if (b.map (·.rel)).isEmpty then recs else add_processed recs (b.map (·.rel)) now)
    by_cases hE : (b.map (·.rel)).isEmpty
    all_goals simp only [hE, if_true, if_false, Bool.false_eq_true, ite_true, ite_false] at hpre
    · refine ⟨[Event.createTemp i, Event.execTool i true, Event.cleanupTemp i] ++ pre, ?_, ?_⟩
      · simp only [execLoop, hok i, if_true, hE, if_pos]
        rw [hpre]
        simp [hE]
      · intro hc
        simp only [List.mem_append, List.mem_cons, List.not_mem_nil] at hc
        rcases hc with (h | h | h | h) | h
        · cases h
        · cases h
        · cases h
        · cases h
        · exact hmem h
    · refine ⟨[Event.createTemp i, Event.execTool i true, Event.record (b.map (·.rel)),
        Event.cleanupTemp i] ++ pre, ?_, ?_⟩
      · simp [execLoop, hok i, hE, hpre]
      · intro hc
        simp only [List.mem_append, List.mem_cons, List.not_mem_nil] at hc
        rcases hc with (h | h | h | h | h) | h
        · cases h
        · cases h
        · cases h
        · cases h
        · cases h
        · exact hmem h

theorem execLoop_fail (ok : Nat → Bool) (now : Nat) :
    ∀ (bs : List (List FInfo)) (k i : Nat) (recs : DBState),
    (∀ j, j < k → ok (i + j) = true) → ok (i + k) = false → k < bs.length →
    (execLoop ok now i recs bs).1 =
      ((bs.take k).foldl (recordBatch now) recs) ∧
    Event.cleanupTemp (i + k) ∈ (execLoop ok now i recs bs).2.2 ∧
    (∀ j b', Event.execTool j b' ∈ (execLoop ok now i recs bs).2.2 → j ≤ i + k) ∧
    Event.sweep ∉ (execLoop ok now i recs bs).2.2 := by
  intro bs
  induction bs with
  | nil => intro k i recs _ _ hk; cases hk
  | cons b rest ih =>
    intro k i recs hbefore hfail hk
    cases k with
    | zero =>
      have h0 : ok i = false := by simpa using hfail
      refine ⟨?_, ?_, ?_, ?_⟩
      · simp [execLoop, h0]
      · simp [execLoop, h0]
      · intro j b' hj
        simp [execLoop, h0] at hj
        omega
      · simp [execLoop, h0]
    | succ k' =>
      have h0 : ok i = true := by simpa using hbefore 0 (Nat.succ_pos k')
      have hb : ∀ j, j < k' → ok (i + 1 + j) = true := by
        intro j hj
        have := hbefore (j + 1) (by omega)
        simpa [Nat.add_assoc, Nat.add_comm 1 j] using this
      have hf : ok (i + 1 + k') = false := by
        have := hfail
        simpa [Nat.add_assoc, Nat.add_comm 1 k'] using this
      have hlen : k' < rest.length := by simpa using Nat.lt_of_succ_lt_succ hk
      obtain ⟨hrec, hclean, hexec, hsweep⟩ :=
        ih k' (i + 1) (recordBatch now recs b) hb hf hlen
      have hik : i + 1 + k' = i + (k' + 1) := by omega
      have hstep : execLoop ok now i recs (b :: rest) =
          (let out := execLoop ok now (i + 1) (recordBatch now recs b) rest
           (out.1, b.length + out.2.1,
             [Event.createTemp i, Event.execTool i true] ++
             (if (b.map (·.rel)).isEmpty then [] else [Event.record (b.map (·.rel))]) ++
             [Event.cleanupTemp i] ++ out.2.2)) := by
        rw [execLoop]
        simp only [h0, if_true]
        rfl
      rw [hstep]
      refine ⟨?_, ?_, ?_, ?_⟩
      · simpa using hrec
      · show Event.cleanupTemp (i + (k' + 1)) ∈ _ ++ _ ++ _ ++ _
        rw [mem_batchEvents]
        exact Or.inr (Or.inr (Or.inr (Or.inr (hik ▸ hclean))))
      · intro j b' hj
        rw [mem_batchEvents] at hj
        rcases hj with h | h | ⟨_, h⟩ | h | h
        · cases h
        · cases h
          omega
        · cases h
        · cases h
        · have := hexec j b' h
          omega
      · intro hc
        rw [mem_batchEvents] at hc
        rcases hc with h | h | ⟨_, h⟩ | h | h
        · cases h
        · cases h
        · cases h
        · cases h
        · exact hsweep h

theorem uinv_init : UInv ⟨[], [], 0⟩ :=
  ⟨by simp, rfl, by simp [BATCH_SIZE], fun _ => rfl⟩

theorem uinv_addUnit {st : UState} (h : UInv st) (u : List FInfo) :
    UInv (addUnit st u) ∧
    (addUnit st u).batches.flatten ++ (addUnit st u).current =
      st.batches.flatten ++ st.current ++ [u] := by
  unfold addUnit
  by_cases hge : st.count ≥ BATCH_SIZE
  · have hcnt : st.current.length = BATCH_SIZE := by
      have := h.cnt
      have := h.le
      omega
    simp only [hge, if_true]
    refine ⟨⟨?_, rfl, ?_, ?_⟩, ?_⟩
    · intro b hb
      rcases List.mem_append.mp hb with hb | hb
      · exact h.full b hb
      · simp at hb
        rw [hb]
        exact hcnt
    · simp [BATCH_SIZE]
    · intro hc
      simp at hc
    · simp
  · simp only [hge, if_false]
    refine ⟨⟨h.full, ?_, ?_, ?_⟩, ?_⟩
    · simp [h.cnt]
    · show st.count + 1 ≤ BATCH_SIZE
      omega
    · intro hc
      simp at hc
    · simp

theorem uinv_foldl (units : List (List FInfo)) :
    ∀ (st : UState), UInv st →
    UInv (units.foldl addUnit st) ∧
    (units.foldl addUnit st).batches.flatten ++ (units.foldl addUnit st).current =
      st.batches.flatten ++ st.current ++ units := by
  induction units with
  | nil => intro st h; exact ⟨h, by simp⟩
  | cons u us ih =>
    intro st h
    obtain ⟨h1, h2⟩ := uinv_addUnit h u
    obtain ⟨h3, h4⟩ := ih (addUnit st u) h1
    refine ⟨h3, ?_⟩
    simp only [List.foldl_cons]
    rw [h4, h2]
    simp

theorem sum_map_length_const {α : Type} (bs : List (List α)) (B : Nat)
    (h : ∀ b ∈ bs, b.length = B) : (bs.map List.length).sum = B * bs.length := by
  induction bs with
  | nil => simp
  | cons b rest ih =>
    simp only [List.map_cons, List.sum_cons, List.length_cons]
    rw [h b (List.mem_cons_self b rest), ih (fun x hx => h x (List.mem_cons_of_mem _ hx))]
    ring

theorem makeUnitBatches_eq_finishU (units : List (List FInfo)) :
    makeUnitBatches units = finishU (units.foldl addUnit ⟨[], [], 0⟩) := rfl

theorem finishU_props (st : UState) (units : List (List FInfo))
    (hinv : UInv st) (hflat : st.batches.flatten ++ st.current = units) :
    (∀ b ∈ (finishU st).dropLast, b.length = BATCH_SIZE) ∧
    (finishU st).flatten = units ∧
    ((finishU st).map List.length).sum = units.length ∧
    (finishU st).length = (units.length + (BATCH_SIZE - 1)) / BATCH_SIZE := by
  unfold finishU
  by_cases hcur : st.current.isEmpty
  · have hc : st.current = [] := by simpa [List.isEmpty_iff] using hcur
    have hb : st.batches = [] := hinv.emp hc
    have hu : units = [] := by rw [← hflat, hc, hb]; simp
    simp [hcur, hb, hu, BATCH_SIZE]
  · have hc : st.current ≠ [] := by simpa [List.isEmpty_iff] using hcur
    simp only [hcur, if_false, Bool.false_eq_true]
    have hfull := hinv.full
    have hlen : units.length = BATCH_SIZE * st.batches.length + st.current.length := by
      rw [← hflat]
      simp [List.length_append, List.length_flatten,
        sum_map_length_const st.batches BATCH_SIZE hfull]
    have hcle : st.current.length ≤ BATCH_SIZE := by
      have h1 := hinv.cnt; have h2 := hinv.le; omega
    have hcge : 1 ≤ st.current.length := by
      cases hna : st.current with
      | nil => exact absurd hna hc
      | cons a l => simp
    refine ⟨?_, ?_, ?_, ?_⟩
    · intro b hb
      rw [List.dropLast_concat] at hb
      exact hfull b hb
    · rw [List.flatten_append, ← hflat]
      simp
    · rw [← hflat]
      simp [List.length_append, List.length_flatten,
        sum_map_length_const st.batches BATCH_SIZE hfull]
    · simp only [List.length_append, List.length_singleton]
      have hB : BATCH_SIZE = 100 := rfl
      rw [hB] at hlen hcle ⊢
      omega

theorem makeUnitBatches_props (units : List (List FInfo)) :
    (∀ b ∈ (makeUnitBatches units).dropLast, b.length = BATCH_SIZE) ∧
    (makeUnitBatches units).flatten = units ∧
    ((makeUnitBatches units).map List.length).sum = units.length ∧
    (makeUnitBatches units).length = (units.length + (BATCH_SIZE - 1)) / BATCH_SIZE := by
  obtain ⟨hinv, hflat⟩ := uinv_foldl units ⟨[], [], 0⟩ uinv_init
  simp only [List.flatten_nil, List.nil_append] at hflat
  rw [makeUnitBatches_eq_finishU]
  exact finishU_props _ units hinv hflat

theorem sim_init : SimInv ⟨[], [], 0⟩ ⟨[], [], 0⟩ :=
  ⟨rfl, rfl, rfl, by simp⟩

theorem sim_addPair {fst : BatchState} {ust : UState} (h : SimInv fst ust)
    (pv : FInfo × FInfo) : SimInv (addPair fst pv) (addUnit ust [pv.1, pv.2]) := by
  unfold addPair addUnit
  rw [← h.count]
  by_cases hge : fst.count ≥ BATCH_SIZE
  · simp only [hge, if_true]
    refine ⟨?_, ?_, rfl, ?_⟩
    · simp [h.batches, h.current]
    · simp
    · intro u hu
      simp at hu
      rw [hu]
      simp
  · simp only [hge, if_false]
    refine ⟨h.batches, ?_, ?_, ?_⟩
    · simp [h.current]
    · simp [h.count]
    · intro u hu
      rcases List.mem_append.mp hu with hu | hu
      · exact h.ne u hu
      · simp at hu
        rw [hu]
        simp

theorem sim_addSingle {fst : BatchState} {ust : UState} (h : SimInv fst ust)
    (s : FInfo) : SimInv (addSingle fst s) (addUnit ust [s]) := by
  unfold addSingle addUnit
  rw [← h.count]
  by_cases hge : fst.count ≥ BATCH_SIZE
  · simp only [hge, if_true]
    refine ⟨?_, ?_, rfl, ?_⟩
    · simp [h.batches, h.current]
    · simp
    · intro u hu
      simp at hu
      rw [hu]
      simp
  · simp only [hge, if_false]
    refine ⟨h.batches, ?_, ?_, ?_⟩
    · simp [h.current]
    · simp [h.count]
    · intro u hu
      rcases List.mem_append.mp hu with hu | hu
      · exact h.ne u hu
      · simp at hu
        rw [hu]
        simp

theorem sim_foldl_pairs (pairs : List (FInfo × FInfo)) :
    ∀ {fst : BatchState} {ust : UState}, SimInv fst ust →
    SimInv (pairs.foldl addPair fst)
      ((pairs.map (fun pv => [pv.1, pv.2])).foldl addUnit ust) := by
  induction pairs with
  | nil => intro _ _ h; exact h
  | cons pv ps ih =>
    intro fst ust h
    simp only [List.map_cons, List.foldl_cons]
    exact ih (sim_addPair h pv)

theorem sim_foldl_singles (singles : List FInfo) :
    ∀ {fst : BatchState} {ust : UState}, SimInv fst ust →
    SimInv (singles.foldl addSingle fst)
      ((singles.map (fun s => [s])).foldl addUnit ust) := by
  induction singles with
  | nil => intro _ _ h; exact h
  | cons s ss ih =>
    intro fst ust h
    simp only [List.map_cons, List.foldl_cons]
    exact ih (sim_addSingle h s)

theorem flatten_ne_nil_of_ne {l : List (List FInfo)} (hl : l ≠ [])
    (h : ∀ u ∈ l, u ≠ []) : l.flatten ≠ [] := by
  cases l with
  | nil => exact absurd rfl hl
  | cons u rest =>
    have hu : u ≠ [] := h u (List.mem_cons_self _ _)
    simp only [List.flatten_cons]
    intro hc
    exact hu (List.append_eq_nil.mp hc).1

theorem makeBatches_eq_finishB (pairs : List (FInfo × FInfo)) (singles : List FInfo) :
    makeBatches pairs singles =
      finishB (singles.foldl addSingle (pairs.foldl addPair ⟨[], [], 0⟩)) := rfl

theorem finishB_eq_flatten {fst : BatchState} {ust : UState} (hsim : SimInv fst ust) :
    finishB fst = (finishU ust).map List.flatten := by
  unfold finishB finishU
  by_cases hcur : ust.current.isEmpty
  · have hc : ust.current = [] := by simpa [List.isEmpty_iff] using hcur
    have hfc : fst.current = [] := by rw [hsim.current, hc]; simp
    simp only [hfc, hc, List.isEmpty_nil, if_true]
    exact hsim.batches
  · have hc : ust.current ≠ [] := by simpa [List.isEmpty_iff] using hcur
    have hfc : fst.current ≠ [] := by
      rw [hsim.current]
      exact flatten_ne_nil_of_ne hc hsim.ne
    have h1 : fst.current.isEmpty = false := by simpa [List.isEmpty_iff] using hfc
    have h2 : ust.current.isEmpty = false := by simpa [List.isEmpty_iff] using hc
    simp only [h1, h2, Bool.false_eq_true, if_false]
    rw [List.map_append, hsim.batches, hsim.current]
    simp

/-- The code's batches of files are the flattenings of the unit-level
batches. -/
theorem makeBatches_eq_flatten (pairs : List (FInfo × FInfo)) (singles : List FInfo) :
    makeBatches pairs singles =
      (makeUnitBatches (unitsOf pairs singles)).map List.flatten := by
  rw [makeBatches_eq_finishB, makeUnitBatches_eq_finishU]
  have hfold : (unitsOf pairs singles).foldl addUnit ⟨[], [], 0⟩ =
      (singles.map (fun s => [s])).foldl addUnit
        ((pairs.map (fun pv => [pv.1, pv.2])).foldl addUnit ⟨[], [], 0⟩) := by
    unfold unitsOf
    rw [List.foldl_append]
  rw [hfold]
  exact finishB_eq_flatten
    (sim_foldl_singles singles (sim_foldl_pairs pairs sim_init))

theorem mem_keys_insertGroup {gs : List (String × List GEntry)} {k k' : String}
    {e : GEntry} (h : k' ∈ (insertGroup gs k e).map Prod.fst) :
    k' ∈ gs.map Prod.fst ∨ k' = k := by
  induction gs with
  | nil =>
    simp [insertGroup] at h
    exact Or.inr h
  | cons p rest ih =>
    obtain ⟨k0, es⟩ := p
    rw [insertGroup] at h
    by_cases hk0 : k0 = k
    · rw [if_pos hk0] at h
      simp at h
      rcases h with h | h
      · exact Or.inl (by simp [h])
      · exact Or.inl (by simp; exact Or.inr h)
    · rw [if_neg hk0] at h
      simp at h
      rcases h with h | h
      · exact Or.inl (by simp [h])
      · rcases ih (by simpa using h) with h' | h'
        · refine Or.inl ?_
          simp only [List.map_cons, List.mem_cons]
          exact Or.inr (by simpa using h')
        · exact Or.inr h'

theorem ginv_insertGroup {gs : List (String × List GEntry)} {k : String} {e : GEntry}
    (h : GInv gs) (hk : stemKey e.1 = k) (he : e.2 = extKey e.1) :
    GInv (insertGroup gs k e) := by
  induction gs with
  | nil =>
    refine ⟨?_, by simp [insertGroup], ?_⟩
    · intro p hp e' he'
      simp [insertGroup] at hp
      subst hp
      simp at he'
      subst he'
      exact ⟨hk, he⟩
    · intro p hp
      simp [insertGroup] at hp
      subst hp
      simp
  | cons p rest ih =>
    obtain ⟨k0, es⟩ := p
    have hkeyed := h.keyed
    have hnd := h.nodup
    have hne := h.ne
    have hnd' : (k0 :: rest.map Prod.fst).Nodup := by simpa using hnd
    have htail : GInv rest :=
      ⟨fun q hq => hkeyed q (List.mem_cons_of_mem _ hq),
       (List.nodup_cons.mp hnd').2,
       fun q hq => hne q (List.mem_cons_of_mem _ hq)⟩
    rw [insertGroup]
    by_cases hk0 : k0 = k
    · rw [if_pos hk0]
      refine ⟨?_, ?_, ?_⟩
      · intro q hq e' he'
        rcases List.mem_cons.mp hq with hq | hq
        · subst hq
          simp only at he' ⊢
          rcases List.mem_append.mp he' with h' | h'
          · exact hkeyed (k0, es) (List.mem_cons_self _ _) e' h'
          · simp at h'
            subst h'
            exact ⟨hk0 ▸ hk, he⟩
        · exact hkeyed q (List.mem_cons_of_mem _ hq) e' he'
      · simpa using hnd
      · intro q hq
        rcases List.mem_cons.mp hq with hq | hq
        · subst hq
          simp
        · exact hne q (List.mem_cons_of_mem _ hq)
    · rw [if_neg hk0]
      have hrest := ih htail
      refine ⟨?_, ?_, ?_⟩
      · intro q hq e' he'
        rcases List.mem_cons.mp hq with hq | hq
        · subst hq
          exact hkeyed (k0, es) (List.mem_cons_self _ _) e' he'
        · exact hrest.keyed q hq e' he'
      · simp only [List.map_cons, List.nodup_cons]
        refine ⟨?_, hrest.nodup⟩
        intro hc
        rcases mem_keys_insertGroup hc with h' | h'
        · exact (List.nodup_cons.mp hnd').1 (by simpa using h')
        · exact hk0 h'
      · intro q hq
        rcases List.mem_cons.mp hq with hq | hq
        · subst hq
          exact hne (k0, es) (List.mem_cons_self _ _)
        · exact hrest.ne q hq

theorem mem_insertGroup_new {gs : List (String × List GEntry)} (k : String) (e : GEntry) :
    ∃ p ∈ insertGroup gs k e, e ∈ p.2 := by
  induction gs with
  | nil => exact ⟨(k, [e]), by simp [insertGroup]⟩
  | cons q rest ih =>
    obtain ⟨k0, es⟩ := q
    rw [insertGroup]
    by_cases hk0 : k0 = k
    · rw [if_pos hk0]
      exact ⟨(k0, es ++ [e]), List.mem_cons_self _ _, by simp⟩
    · rw [if_neg hk0]
      obtain ⟨p, hp, hep⟩ := ih
      exact ⟨p, List.mem_cons_of_mem _ hp, hep⟩

theorem mem_insertGroup_old {gs : List (String × List GEntry)} {k : String} {e : GEntry}
    {p : String × List GEntry} {x : GEntry} (hp : p ∈ gs) (hx : x ∈ p.2) :
    ∃ q ∈ insertGroup gs k e, x ∈ q.2 := by
  induction gs with
  | nil => cases hp
  | cons q0 rest ih =>
    obtain ⟨k0, es⟩ := q0
    rw [insertGroup]
    by_cases hk0 : k0 = k
    · rw [if_pos hk0]
      rcases List.mem_cons.mp hp with hp' | hp'
      · refine ⟨(k0, es ++ [e]), List.mem_cons_self _ _, ?_⟩
        simp only
        have hxe : x ∈ es := by subst hp'; exact hx
        exact List.mem_append_left _ hxe
      · exact ⟨p, List.mem_cons_of_mem _ hp', hx⟩
    · rw [if_neg hk0]
      rcases List.mem_cons.mp hp with hp' | hp'
      · exact ⟨(k0, es), List.mem_cons_self _ _, hp' ▸ hx⟩
      · obtain ⟨q, hq, hxq⟩ := ih hp'
        exact ⟨q, List.mem_cons_of_mem _ hq, hxq⟩

theorem ginv_groupByBasename (files : List FInfo) : GInv (groupByBasename files) := by
  unfold groupByBasename
  suffices h : ∀ gs : List (String × List GEntry), GInv gs →
      GInv (files.foldl (fun gs f => insertGroup gs (stemKey f) (f, extKey f)) gs) by
    exact h [] ⟨by simp, by simp, by simp⟩
  induction files with
  | nil => intro gs h; exact h
  | cons f fs ih =>
    intro gs h
    exact ih _ (ginv_insertGroup h rfl rfl)

theorem cover_groupByBasename (files : List FInfo) :
    ∀ f ∈ files, ∃ p ∈ groupByBasename files, (f, extKey f) ∈ p.2 := by
  unfold groupByBasename
  suffices h : ∀ (gs : List (String × List GEntry)) (f : FInfo),
      (f ∈ files ∨ ∃ p ∈ gs, (f, extKey f) ∈ p.2) →
      ∃ p ∈ files.foldl (fun gs f => insertGroup gs (stemKey f) (f, extKey f)) gs,
        (f, extKey f) ∈ p.2 by
    intro f hf
    exact h [] f (Or.inl hf)
  induction files with
  | nil =>
    intro gs f hf
    rcases hf with hf | hf
    · cases hf
    · exact hf
  | cons g fs ih =>
    intro gs f hf
    simp only [List.foldl_cons]
    rcases hf with hf | ⟨p, hp, hx⟩
    · rcases List.mem_cons.mp hf with hf' | hf'
      · refine ih _ f (Or.inr ?_)
        subst hf'
        exact mem_insertGroup_new (stemKey f) (f, extKey f)
      · exact ih _ f (Or.inl hf')
    · exact ih _ f (Or.inr (mem_insertGroup_old hp hx))

theorem classifyStep_eq (acc : List (FInfo × FInfo) × List FInfo)
    (g : String × List GEntry) :
    classifyStep acc g = (acc.1 ++ (pairOf g).toList, acc.2 ++ singlesOf g) := by
  obtain ⟨k, es⟩ := g
  match es with
  | [] => simp [classifyStep, pairOf, singlesOf]
  | [e1] => simp [classifyStep, pairOf, singlesOf]
  | [e1, e2] =>
    simp only [classifyStep, pairOf, singlesOf]
    by_cases hp : is_pair e1.2 e2.2
    · rw [if_pos hp, if_pos hp, if_pos hp]
      by_cases hv : video_exts.contains e1.2
      · rw [if_pos hv, if_pos hv]
        simp
      · rw [if_neg hv, if_neg hv]
        simp
    · rw [if_neg hp, if_neg hp, if_neg hp]
      simp
  | e1 :: e2 :: e3 :: rest => simp [classifyStep, pairOf, singlesOf]

theorem classifyGroups_eq (gs : List (String × List GEntry)) :
    classifyGroups gs = (gs.filterMap pairOf, (gs.map singlesOf).flatten) := by
  unfold classifyGroups
  suffices h : ∀ acc : List (FInfo × FInfo) × List FInfo,
      gs.foldl classifyStep acc =
        (acc.1 ++ gs.filterMap pairOf, acc.2 ++ (gs.map singlesOf).flatten) by
    simpa using h ([], [])
  induction gs with
  | nil => intro acc; simp
  | cons g rest ih =>
    intro acc
    rw [List.foldl_cons, classifyStep_eq, ih]
    simp only [List.filterMap_cons, List.map_cons, List.flatten_cons]
    cases hpg : pairOf g <;> simp [List.append_assoc]

theorem pairOf_stem {gs : List (String × List GEntry)} {g : String × List GEntry}
    {pv : FInfo × FInfo} (hinv : GInv gs) (hg : g ∈ gs) (hpv : pairOf g = some pv) :
    stemKey pv.1 = g.1 ∧ stemKey pv.2 = g.1 ∧ singlesOf g = [] := by
  obtain ⟨k, es⟩ := g
  match es with
  | [] => simp [pairOf] at hpv
  | [e1] => simp [pairOf] at hpv
  | [e1, e2] =>
    simp only [pairOf] at hpv
    by_cases hp : is_pair e1.2 e2.2
    · rw [if_pos hp] at hpv
      have h1 := (hinv.keyed (k, [e1, e2]) hg e1 (by simp)).1
      have h2 := (hinv.keyed (k, [e1, e2]) hg e2 (by simp)).1
      by_cases hv : video_exts.contains e1.2
      · rw [if_pos hv] at hpv
        injection hpv with hpv
        subst hpv
        exact ⟨h2, h1, by simp [singlesOf, hp]⟩
      · rw [if_neg hv] at hpv
        injection hpv with hpv
        subst hpv
        exact ⟨h1, h2, by simp [singlesOf, hp]⟩
    · rw [if_neg hp] at hpv
      cases hpv
  | e1 :: e2 :: e3 :: rest => simp [pairOf] at hpv

theorem singlesOf_stem {gs : List (String × List GEntry)} {g : String × List GEntry}
    {x : FInfo} (hinv : GInv gs) (hg : g ∈ gs) (hx : x ∈ singlesOf g) :
    stemKey x = g.1 := by
  obtain ⟨k, es⟩ := g
  have hmem : x ∈ es.map (·.1) := by
    match es with
    | [] => simp [singlesOf] at hx
    | [e1] => simp only [singlesOf] at hx; exact hx
    | [e1, e2] =>
      simp only [singlesOf] at hx
      by_cases hp : is_pair e1.2 e2.2
      · rw [if_pos hp] at hx
        cases hx
      · rw [if_neg hp] at hx
        simpa using hx
    | e1 :: e2 :: e3 :: rest => simpa [singlesOf] using hx
  obtain ⟨e, he, hex⟩ := List.mem_map.mp hmem
  have hst := (hinv.keyed (k, es) hg e he).1
  rw [hex] at hst
  exact hst

theorem group_eq_of_key {gs : List (String × List GEntry)}
    {g g' : String × List GEntry} (hnd : (gs.map Prod.fst).Nodup)
    (hg : g ∈ gs) (hg' : g' ∈ gs) (hk : g.1 = g'.1) : g = g' := by
  induction gs with
  | nil => cases hg
  | cons p rest ih =>
    simp only [List.map_cons, List.nodup_cons] at hnd
    rcases List.mem_cons.mp hg with h1 | h1 <;> rcases List.mem_cons.mp hg' with h2 | h2
    · rw [h1, h2]
    · exfalso
      apply hnd.1
      rw [← h1, hk]
      exact List.mem_map_of_mem Prod.fst h2
    · exfalso
      apply hnd.1
      rw [← h2, ← hk]
      exact List.mem_map_of_mem Prod.fst h1
    · exact ih hnd.2 h1 h2

/-- A Pair's members occur in the unit list only inside the Pair's own unit. -/
theorem pair_unit_unique (files : List FInfo) {pv : FInfo × FInfo}
    (hpv : pv ∈ (groupFiles files).1) :
    ∀ u ∈ unitsOf (groupFiles files).1 (groupFiles files).2,
      (pv.1 ∈ u ∨ pv.2 ∈ u) → u = [pv.1, pv.2] := by
  have hinv := ginv_groupByBasename files
  have hcl : groupFiles files =
      ((groupByBasename files).filterMap pairOf,
       ((groupByBasename files).map singlesOf).flatten) := by
    unfold groupFiles
    exact classifyGroups_eq _
  set gs := groupByBasename files with hgs
  obtain ⟨g, hg, hgpv⟩ := List.mem_filterMap.mp (by rw [hcl] at hpv; exact hpv)
  obtain ⟨hs1, hs2, hsingles⟩ := pairOf_stem hinv hg hgpv
  intro u hu hmem
  rcases List.mem_append.mp hu with hu | hu
  · -- u is some pair's unit
    obtain ⟨qv, hqv, hqe⟩ := List.mem_map.mp hu
    obtain ⟨g', hg', hgqv⟩ := List.mem_filterMap.mp (by rw [hcl] at hqv; exact hqv)
    obtain ⟨ht1, ht2, _⟩ := pairOf_stem hinv hg' hgqv
    have hkey : g.1 = g'.1 := by
      subst hqe
      rcases hmem with hm | hm <;> rcases (by simpa using hm : _ ∨ _) with he | he
      · rw [← hs1, he, ht1]
      · rw [← hs1, he, ht2]
      · rw [← hs2, he, ht1]
      · rw [← hs2, he, ht2]
    have hgg : g = g' := group_eq_of_key hinv.nodup hg hg' hkey
    rw [hgg] at hgpv
    rw [hgpv] at hgqv
    injection hgqv with hpq
    rw [← hqe, ← hpq]
  · -- u is a single's unit: impossible
    exfalso
    obtain ⟨s, hs, hse⟩ := List.mem_map.mp hu
    obtain ⟨l, hl, hsl⟩ := List.mem_flatten.mp (by rw [hcl] at hs; exact hs)
    obtain ⟨g', hg', hge⟩ := List.mem_map.mp hl
    rw [← hge] at hsl
    have hst : stemKey s = g'.1 := singlesOf_stem hinv hg' hsl
    have hkey : g.1 = g'.1 := by
      rw [← hse] at hmem
      rcases hmem with hm | hm <;> simp at hm
      · rw [← hs1, hm]
        exact hst
      · rw [← hs2, hm]
        exact hst
    have hgg : g = g' := group_eq_of_key hinv.nodup hg hg' hkey
    rw [← hgg] at hsl
    rw [hsingles] at hsl
    cases hsl

theorem pairOf_entry {g : String × List GEntry} {pv : FInfo × FInfo}
    (h : pairOf g = some pv) {e : GEntry} (he : e ∈ g.2) :
    e.1 = pv.1 ∨ e.1 = pv.2 := by
  obtain ⟨k, es⟩ := g
  match es with
  | [] => simp [pairOf] at h
  | [e1] => simp [pairOf] at h
  | [e1, e2] =>
    simp only [pairOf] at h
    by_cases hp : is_pair e1.2 e2.2
    · rw [if_pos hp] at h
      by_cases hv : video_exts.contains e1.2
      · rw [if_pos hv] at h
        injection h with h
        subst h
        rcases (by simpa using he : e = e1 ∨ e = e2) with he' | he' <;> subst he' <;> simp
      · rw [if_neg hv] at h
        injection h with h
        subst h
        rcases (by simpa using he : e = e1 ∨ e = e2) with he' | he' <;> subst he' <;> simp
    · rw [if_neg hp] at h
      cases h
  | e1 :: e2 :: e3 :: rest => simp [pairOf] at h

theorem singlesOf_entry {g : String × List GEntry}
    (h : pairOf g = none) {e : GEntry} (he : e ∈ g.2) :
    e.1 ∈ singlesOf g := by
  obtain ⟨k, es⟩ := g
  match es with
  | [] => cases he
  | [e1] =>
    simp only [singlesOf]
    exact List.mem_map_of_mem _ he
  | [e1, e2] =>
    simp only [pairOf] at h
    by_cases hp : is_pair e1.2 e2.2
    · rw [if_pos hp] at h
      by_cases hv : video_exts.contains e1.2
      · rw [if_pos hv] at h; cases h
      · rw [if_neg hv] at h; cases h
    · simp only [singlesOf]
      rw [if_neg hp]
      rcases (by simpa using he : e = e1 ∨ e = e2) with he' | he' <;> subst he' <;> simp
  | e1 :: e2 :: e3 :: rest =>
    simp only [singlesOf]
    exact List.mem_map_of_mem _ he

/-- Every candidate file appears among the Grouping Units' files. -/
theorem mem_flatten_unitsOf (files : List FInfo) :
    ∀ f ∈ files, f ∈ (unitsOf (groupFiles files).1 (groupFiles files).2).flatten := by
  intro f hf
  have hcl : groupFiles files =
      ((groupByBasename files).filterMap pairOf,
       ((groupByBasename files).map singlesOf).flatten) := classifyGroups_eq _
  obtain ⟨p, hp, hep⟩ := cover_groupByBasename files f hf
  rw [List.mem_flatten]
  cases hpo : pairOf p with
  | some pv =>
    refine ⟨[pv.1, pv.2], ?_, ?_⟩
    · unfold unitsOf
      refine List.mem_append_left _ ?_
      refine List.mem_map.mpr ⟨pv, ?_, rfl⟩
      rw [hcl]
      exact List.mem_filterMap.mpr ⟨p, hp, hpo⟩
    · rcases pairOf_entry hpo hep with h | h <;> simp [← h]
  | none =>
    refine ⟨[f], ?_, by simp⟩
    unfold unitsOf
    refine List.mem_append_right _ ?_
    refine List.mem_map.mpr ⟨f, ?_, rfl⟩
    rw [hcl]
    simp only
    rw [List.mem_flatten]
    refine ⟨singlesOf p, List.mem_map_of_mem _ hp, ?_⟩
    have := singlesOf_entry hpo hep
    simpa using this

theorem execLoop_allok_recs (ok : Nat → Bool) (now : Nat) (hok : ∀ i, ok i = true) :
    ∀ (bs : List (List FInfo)) (i : Nat) (recs : DBState),
    (execLoop ok now i recs bs).1 = bs.foldl (recordBatch now) recs := by
  intro bs
  induction bs with
  | nil => intro i recs; rfl
  | cons b rest ih =>
    intro i recs
    simp only [execLoop, hok i, if_true, List.foldl_cons]
    exact ih (i + 1) (recordBatch now recs b)

theorem mem_pathsOf_recordBatch (recs : DBState) (b : List FInfo) (now : Nat)
    (q : String) :
    q ∈ pathsOf (recordBatch now recs b) ↔ q ∈ pathsOf recs ∨ q ∈ b.map (·.rel) := by
  unfold recordBatch
  by_cases hE : (b.map (·.rel)).isEmpty
  · have hnil : b.map (·.rel) = [] := by simpa [List.isEmpty_iff] using hE
    simp [hE, hnil]
  · have hE' : (b.map (·.rel)).isEmpty = false := by simpa using hE
    simp [hE', mem_pathsOf_add_processed]

theorem mem_pathsOf_foldl_recordBatch (bs : List (List FInfo)) :
    ∀ (recs : DBState) (now : Nat) (q : String),
    q ∈ pathsOf (bs.foldl (recordBatch now) recs) ↔
      q ∈ pathsOf recs ∨ ∃ b ∈ bs, q ∈ b.map (·.rel) := by
  induction bs with
  | nil => intro recs now q; simp
  | cons b rest ih =>
    intro recs now q
    rw [List.foldl_cons, ih, mem_pathsOf_recordBatch]
    simp only [List.mem_cons]
    constructor
    · rintro ((h | h) | ⟨b', hb', hq⟩)
      · exact Or.inl h
      · exact Or.inr ⟨b, Or.inl rfl, h⟩
      · exact Or.inr ⟨b', Or.inr hb', hq⟩
    · rintro (h | ⟨b', hb' | hb', hq⟩)
      · exact Or.inl (Or.inl h)
      · exact Or.inl (Or.inr (hb' ▸ hq))
      · exact Or.inr ⟨b', hb', hq⟩

theorem is_processed_iff (recs : DBState) (p : String) :
    is_processed recs p = true ↔ p ∈ pathsOf recs := by
  simp [is_processed, pathsOf, List.any_eq_true]

/-- Claim C1 (counterexample): in an invocation whose scan yields no
candidate files and which does not abort, the Retention Sweeper is never
invoked: the run's event trace contains no sweep event at all. -/
theorem c1_zero_candidates_no_sweep :
    ((run_processor (fun _ => true) 0 ([] : List FInfo) ([] : DBState)).2.2).count
      Event.sweep = 0 := rfl

/-- Claim C1 (amended): in every pipeline invocation whose scan yields at
least one candidate file and in which no batch fails, the Retention Sweeper
runs exactly once, after all batch processing; with zero candidate files it
is not invoked. -/
theorem c1_sweep_once_after_batches (ok : Nat → Bool) (now : Nat)
    (files : List FInfo) (recs : DBState) (hne : files ≠ [])
    (hok : ∀ i, ok i = true) :
    ∃ pre, (run_processor ok now files recs).2.2 = pre ++ [Event.sweep] ∧
      Event.sweep ∉ pre := by
  have hE : files.isEmpty = false := by simpa [List.isEmpty_iff] using hne
  unfold run_processor process_files
  simp only [hE, Bool.false_eq_true, if_false]
  exact execLoop_allok_events ok now hok _ 0 recs

/-- Witness for C1's amended theorem at a concrete one-file run. -/
theorem c1_sweep_once_witness :
    ([(⟨"a.jpg", "/s/a.jpg"⟩ : FInfo)] ≠ []) ∧
    ∃ pre, (run_processor (fun _ => true) 7 [(⟨"a.jpg", "/s/a.jpg"⟩ : FInfo)]
        ([] : DBState)).2.2 = pre ++ [Event.sweep] ∧ Event.sweep ∉ pre :=
  ⟨by decide, c1_sweep_once_after_batches (fun _ => true) 7 _ []
    (by decide) (fun _ => rfl)⟩

/-- Claim C6: if the external transformation fails on batch `k` (all earlier
batches succeeded), the final store state is exactly the store after
recording batches `0..k-1` (the failing batch is not recorded and earlier
recordings remain), no batch after `k` is attempted, the failing batch's
staging area is still removed, and the sweep is not reached. -/
theorem c6_transform_failure (ok : Nat → Bool) (now : Nat) (files : List FInfo)
    (recs : DBState) (k : Nat) (hne : files ≠ [])
    (hk : k < (scheduleBatches files).length)
    (hbefore : ∀ j, j < k → ok j = true) (hfail : ok k = false) :
    (process_files ok now files recs).1 =
      ((scheduleBatches files).take k).foldl (recordBatch now) recs ∧
    Event.cleanupTemp k ∈ (process_files ok now files recs).2.2 ∧
    (∀ j b', Event.execTool j b' ∈ (process_files ok now files recs).2.2 → j ≤ k) ∧
    Event.sweep ∉ (process_files ok now files recs).2.2 := by
  have hE : files.isEmpty = false := by simpa [List.isEmpty_iff] using hne
  have hb0 : ∀ j, j < k → ok (0 + j) = true := by
    intro j hj
    simpa using hbefore j hj
  have hf0 : ok (0 + k) = false := by simpa using hfail
  have h := execLoop_fail ok now (scheduleBatches files) k 0 recs hb0 hf0 hk
  unfold process_files
  simp only [hE, Bool.false_eq_true, if_false]
  simpa using h

/-- Witness for C6 at a one-batch run whose only batch fails. -/
theorem c6_transform_failure_witness :
    (([(⟨"a.jpg", "/s/a.jpg"⟩ : FInfo)] : List FInfo) ≠ []) ∧
    0 < (scheduleBatches [(⟨"a.jpg", "/s/a.jpg"⟩ : FInfo)]).length ∧
    ((process_files (fun _ => false) 7 [(⟨"a.jpg", "/s/a.jpg"⟩ : FInfo)]
        ([] : DBState)).1 =
      ((scheduleBatches [(⟨"a.jpg", "/s/a.jpg"⟩ : FInfo)]).take 0).foldl
        (recordBatch 7) ([] : DBState) ∧
    Event.cleanupTemp 0 ∈ (process_files (fun _ => false) 7
        [(⟨"a.jpg", "/s/a.jpg"⟩ : FInfo)] ([] : DBState)).2.2 ∧
    (∀ j b', Event.execTool j b' ∈ (process_files (fun _ => false) 7
        [(⟨"a.jpg", "/s/a.jpg"⟩ : FInfo)] ([] : DBState)).2.2 → j ≤ 0) ∧
    Event.sweep ∉ (process_files (fun _ => false) 7
        [(⟨"a.jpg", "/s/a.jpg"⟩ : FInfo)] ([] : DBState)).2.2) :=
  ⟨by decide, by decide,
   c6_transform_failure (fun _ => false) 7 _ [] 0 (by decide) (by decide)
     (fun j hj => absurd hj (Nat.not_lt_zero j)) rfl⟩

/-- Claim C7: evaluation of the staging-area naming at the failing input:
the name is a pure function of the whole-second timestamp, so two runs
starting within the same second receive the same staging directory; no
high-resolution or random component enters the name. -/
theorem c7_staging_name_second_resolution :
    tempDirName 1700000000 = "/tmp/gp_processor_1700000000" := rfl

/-- Claim C8 (counterexample): with a negative scan window (claimed to mean
an unrestricted age, hence retention forced to 0 and success), configuration
validation in fact fails. -/
theorem c8_negative_scan_days_fails :
    validateRetention (-1) 30 =
      Except.error "TARGET_RETENTION_DAYS cannot exceed SCAN_DAYS" := rfl

/-- Claim C8 (amended): retention is forced to 0 (and loading succeeds)
exactly when scanDays equals 0; for any nonzero scanDays — positive or
negative — loading fails iff retentionDays exceeds scanDays. -/
theorem c8_retention_validation (s r : Int) :
    (s = 0 → validateRetention s r = Except.ok (s, 0)) ∧
    (s ≠ 0 → r > s →
      validateRetention s r =
        Except.error "TARGET_RETENTION_DAYS cannot exceed SCAN_DAYS") ∧
    (s ≠ 0 → r ≤ s → validateRetention s r = Except.ok (s, r)) := by
  refine ⟨fun h => ?_, fun h h' => ?_, fun h h' => ?_⟩
  · simp [validateRetention, h]
  · simp [validateRetention, h, h']
  · simp [validateRetention, h, not_lt.mpr h']

/-- Witness for C8's amended theorem at the spec's own test values. -/
theorem c8_retention_validation_witness :
    validateRetention 0 30 = Except.ok (0, 0) ∧
    validateRetention 10 20 =
      Except.error "TARGET_RETENTION_DAYS cannot exceed SCAN_DAYS" ∧
    validateRetention 30 10 = Except.ok (30, 10) :=
  ⟨(c8_retention_validation 0 30).1 rfl,
   (c8_retention_validation 10 20).2.1 (by decide) (by decide),
   (c8_retention_validation 30 10).2.2 (by decide) (by decide)⟩

/-- Claim C9: `add_processed` is an idempotent bulk upsert: path uniqueness
is preserved, every upserted path afterwards has exactly one record carrying
the new timestamp, and records of paths outside the call are untouched. -/
theorem c9_add_processed_upsert (recs : DBState) (ps : List String) (now : Nat)
    (hnd : (pathsOf recs).Nodup) :
    (pathsOf (add_processed recs ps now)).Nodup ∧
    (∀ p ∈ ps, (add_processed recs ps now).filter (fun r => r.1 == p) = [(p, now)]) ∧
    (∀ p, p ∉ ps → (add_processed recs ps now).filter (fun r => r.1 == p) =
      recs.filter (fun r => r.1 == p)) :=
  ⟨nodup_pathsOf_add_processed ps recs now hnd,
   fun p hp => filter_add_processed_mem ps recs p now hp,
   fun p hp => filter_add_processed_nonmem ps recs p now hp⟩

/-- Witness for C9: re-inserting the tracked path "a" refreshes its record. -/
theorem c9_add_processed_witness :
    (pathsOf (add_processed [("a", 1)] ["a", "b"] 7)).Nodup ∧
    (∀ p ∈ ["a", "b"],
      (add_processed [("a", 1)] ["a", "b"] 7).filter (fun r => r.1 == p) = [(p, 7)]) ∧
    (∀ p, p ∉ ["a", "b"] →
      (add_processed [("a", 1)] ["a", "b"] 7).filter (fun r => r.1 == p) =
        ([("a", 1)] : DBState).filter (fun r => r.1 == p)) :=
  c9_add_processed_upsert [("a", 1)] ["a", "b"] 7 (by decide)

theorem scheduleBatches_def (files : List FInfo) :
    scheduleBatches files = makeBatches (groupFiles files).1 (groupFiles files).2 := rfl

theorem photo_not_video : ∀ x ∈ photo_exts, x ∉ video_exts := by decide

/-- Claim C2: the scheduler never splits a Live-Photo Pair: every batch of
`process_files` contains either both members of a Pair or neither. -/
theorem c2_pair_atomicity (files : List FInfo) (b : List FInfo)
    (pv : FInfo × FInfo) (hb : b ∈ scheduleBatches files)
    (hpv : pv ∈ (groupFiles files).1) : pv.1 ∈ b ↔ pv.2 ∈ b := by
  have hbridge : scheduleBatches files =
      (makeUnitBatches (unitsOf (groupFiles files).1 (groupFiles files).2)).map
        List.flatten := by
    rw [scheduleBatches_def]
    exact makeBatches_eq_flatten _ _
  set units := unitsOf (groupFiles files).1 (groupFiles files).2 with hunits
  have hflat := (makeUnitBatches_props units).2.1
  obtain ⟨ub, hub, hfl⟩ := List.mem_map.mp (by rw [hbridge] at hb; exact hb)
  have huniq := pair_unit_unique files hpv
  have hstep : ∀ x y : FInfo, (x = pv.1 ∨ x = pv.2) → (y = pv.1 ∨ y = pv.2) →
      x ∈ b → y ∈ b := by
    intro x y hx hy hxb
    rw [← hfl] at hxb ⊢
    obtain ⟨u, hu, hxu⟩ := List.mem_flatten.mp hxb
    have hun : u ∈ units := by
      rw [← hflat]
      exact List.mem_flatten.mpr ⟨ub, hub, hu⟩
    have hue : u = [pv.1, pv.2] := by
      refine huniq u hun ?_
      rcases hx with hx | hx
      · exact Or.inl (hx ▸ hxu)
      · exact Or.inr (hx ▸ hxu)
    refine List.mem_flatten.mpr ⟨u, hu, ?_⟩
    rw [hue]
    rcases hy with hy | hy <;> simp [hy]
  exact ⟨fun h => hstep pv.1 pv.2 (Or.inl rfl) (Or.inr rfl) h,
         fun h => hstep pv.2 pv.1 (Or.inr rfl) (Or.inl rfl) h⟩

/-- Witness for C2 at a concrete pair plus a single in one batch. -/
theorem c2_pair_atomicity_witness :
    (((⟨"x/a.jpg", "A"⟩ : FInfo), (⟨"y/a.mov", "B"⟩ : FInfo)) ∈
      (groupFiles [⟨"x/a.jpg", "A"⟩, ⟨"y/a.mov", "B"⟩, ⟨"b.png", "C"⟩]).1) ∧
    ([⟨"x/a.jpg", "A"⟩, ⟨"y/a.mov", "B"⟩, ⟨"b.png", "C"⟩] ∈
      scheduleBatches [⟨"x/a.jpg", "A"⟩, ⟨"y/a.mov", "B"⟩, ⟨"b.png", "C"⟩]) ∧
    ((⟨"x/a.jpg", "A"⟩ : FInfo) ∈
        ([⟨"x/a.jpg", "A"⟩, ⟨"y/a.mov", "B"⟩, ⟨"b.png", "C"⟩] : List FInfo) ↔
      (⟨"y/a.mov", "B"⟩ : FInfo) ∈
        ([⟨"x/a.jpg", "A"⟩, ⟨"y/a.mov", "B"⟩, ⟨"b.png", "C"⟩] : List FInfo)) :=
  ⟨by decide, by decide,
   c2_pair_atomicity [⟨"x/a.jpg", "A"⟩, ⟨"y/a.mov", "B"⟩, ⟨"b.png", "C"⟩]
     [⟨"x/a.jpg", "A"⟩, ⟨"y/a.mov", "B"⟩, ⟨"b.png", "C"⟩]
     ((⟨"x/a.jpg", "A"⟩ : FInfo), (⟨"y/a.mov", "B"⟩ : FInfo))
     (by decide) (by decide)⟩

/-- Claim C3: the batches of a non-empty candidate list are the flattenings
of the unit-level batches; every unit-level batch but possibly the last
holds exactly BATCH_SIZE Grouping Units, the units are partitioned exactly,
and the batch count is the ceiling of units over BATCH_SIZE. -/
theorem c3_batch_sizes (files : List FInfo) (hne : files ≠ []) :
    scheduleBatches files =
      (makeUnitBatches (unitsOf (groupFiles files).1 (groupFiles files).2)).map
        List.flatten ∧
    unitsOf (groupFiles files).1 (groupFiles files).2 ≠ [] ∧
    (∀ ub ∈ (makeUnitBatches
        (unitsOf (groupFiles files).1 (groupFiles files).2)).dropLast,
      ub.length = BATCH_SIZE) ∧
    ((makeUnitBatches (unitsOf (groupFiles files).1 (groupFiles files).2)).map
        List.length).sum =
      (unitsOf (groupFiles files).1 (groupFiles files).2).length ∧
    (makeUnitBatches (unitsOf (groupFiles files).1 (groupFiles files).2)).length =
      ((unitsOf (groupFiles files).1 (groupFiles files).2).length +
        (BATCH_SIZE - 1)) / BATCH_SIZE := by
  obtain ⟨hfull, hflat, hsum, hlen⟩ :=
    makeUnitBatches_props (unitsOf (groupFiles files).1 (groupFiles files).2)
  refine ⟨?_, ?_, hfull, hsum, hlen⟩
  · rw [scheduleBatches_def]
    exact makeBatches_eq_flatten _ _
  · obtain ⟨f, hf⟩ := List.exists_mem_of_ne_nil files hne
    have := mem_flatten_unitsOf files f hf
    intro hc
    rw [hc] at this
    cases this

/-- Witness for C3 at a three-file list forming one pair and one single. -/
theorem c3_batch_sizes_witness :
    (([⟨"x/a.jpg", "A"⟩, ⟨"y/a.mov", "B"⟩, ⟨"b.png", "C"⟩] : List FInfo) ≠ []) ∧
    (scheduleBatches [⟨"x/a.jpg", "A"⟩, ⟨"y/a.mov", "B"⟩, ⟨"b.png", "C"⟩] =
      (makeUnitBatches (unitsOf
        (groupFiles [⟨"x/a.jpg", "A"⟩, ⟨"y/a.mov", "B"⟩, ⟨"b.png", "C"⟩]).1
        (groupFiles [⟨"x/a.jpg", "A"⟩, ⟨"y/a.mov", "B"⟩, ⟨"b.png", "C"⟩]).2)).map
          List.flatten ∧
    unitsOf (groupFiles [⟨"x/a.jpg", "A"⟩, ⟨"y/a.mov", "B"⟩, ⟨"b.png", "C"⟩]).1
      (groupFiles [⟨"x/a.jpg", "A"⟩, ⟨"y/a.mov", "B"⟩, ⟨"b.png", "C"⟩]).2 ≠ [] ∧
    (∀ ub ∈ (makeUnitBatches (unitsOf
        (groupFiles [⟨"x/a.jpg", "A"⟩, ⟨"y/a.mov", "B"⟩, ⟨"b.png", "C"⟩]).1
        (groupFiles [⟨"x/a.jpg", "A"⟩, ⟨"y/a.mov", "B"⟩, ⟨"b.png", "C"⟩]).2)).dropLast,
      ub.length = BATCH_SIZE) ∧
    ((makeUnitBatches (unitsOf
        (groupFiles [⟨"x/a.jpg", "A"⟩, ⟨"y/a.mov", "B"⟩, ⟨"b.png", "C"⟩]).1
        (groupFiles [⟨"x/a.jpg", "A"⟩, ⟨"y/a.mov", "B"⟩, ⟨"b.png", "C"⟩]).2)).map
          List.length).sum =
      (unitsOf (groupFiles [⟨"x/a.jpg", "A"⟩, ⟨"y/a.mov", "B"⟩, ⟨"b.png", "C"⟩]).1
        (groupFiles [⟨"x/a.jpg", "A"⟩, ⟨"y/a.mov", "B"⟩, ⟨"b.png", "C"⟩]).2).length ∧
    (makeUnitBatches (unitsOf
        (groupFiles [⟨"x/a.jpg", "A"⟩, ⟨"y/a.mov", "B"⟩, ⟨"b.png", "C"⟩]).1
        (groupFiles [⟨"x/a.jpg", "A"⟩, ⟨"y/a.mov", "B"⟩, ⟨"b.png", "C"⟩]).2)).length =
      ((unitsOf (groupFiles [⟨"x/a.jpg", "A"⟩, ⟨"y/a.mov", "B"⟩, ⟨"b.png", "C"⟩]).1
        (groupFiles [⟨"x/a.jpg", "A"⟩, ⟨"y/a.mov", "B"⟩, ⟨"b.png", "C"⟩]).2).length +
        (BATCH_SIZE - 1)) / BATCH_SIZE) :=
  ⟨by decide,
   c3_batch_sizes [⟨"x/a.jpg", "A"⟩, ⟨"y/a.mov", "B"⟩, ⟨"b.png", "C"⟩] (by decide)⟩

/-- Claim C10: the grouping key ignores the directory component: two files
in different directories sharing a lower-cased stem, one with an image
extension and one with a video extension, are classified as one Pair. -/
theorem c10_key_ignores_directory (f1 f2 : FInfo)
    (_hdir : relDir f1.rel ≠ relDir f2.rel)
    (hstem : stemKey f1 = stemKey f2)
    (h1 : extKey f1 ∈ photo_exts) (h2 : extKey f2 ∈ video_exts) :
    groupFiles [f1, f2] = ([(f1, f2)], []) := by
  have hgb : groupByBasename [f1, f2] =
      [(stemKey f1, [(f1, extKey f1), (f2, extKey f2)])] := by
    unfold groupByBasename
    simp only [List.foldl_cons, List.foldl_nil]
    rw [insertGroup, insertGroup, if_pos hstem]
    simp
  have hc1 : photo_exts.contains (extKey f1) = true := List.elem_iff.mpr h1
  have hc2 : video_exts.contains (extKey f2) = true := List.elem_iff.mpr h2
  have hnv : video_exts.contains (extKey f1) = false := by
    rcases hcv : video_exts.contains (extKey f1) with _ | _
    · rfl
    · exact absurd (List.elem_iff.mp hcv) (photo_not_video _ h1)
  have hp : is_pair (extKey f1) (extKey f2) = true := by
    simp only [is_pair, hc1, hc2, Bool.and_self, Bool.true_and, Bool.true_or]
  unfold groupFiles
  rw [hgb]
  unfold classifyGroups
  simp only [List.foldl_cons, List.foldl_nil]
  rw [classifyStep_eq]
  simp only [pairOf, singlesOf, hp, if_true, hnv, Bool.false_eq_true, if_false]
  simp

/-- Witness for C10: files in directories `x` and `y` sharing stem `a`
(up to case) form one Pair. -/
theorem c10_key_ignores_directory_witness :
    (relDir ("x/a.jpg" : String) ≠ relDir ("y/A.MOV" : String)) ∧
    stemKey ⟨"x/a.jpg", "F1"⟩ = stemKey ⟨"y/A.MOV", "F2"⟩ ∧
    extKey ⟨"x/a.jpg", "F1"⟩ ∈ photo_exts ∧
    extKey ⟨"y/A.MOV", "F2"⟩ ∈ video_exts ∧
    groupFiles [⟨"x/a.jpg", "F1"⟩, ⟨"y/A.MOV", "F2"⟩] =
      ([((⟨"x/a.jpg", "F1"⟩ : FInfo), (⟨"y/A.MOV", "F2"⟩ : FInfo))], []) :=
  ⟨by decide, by decide, by decide, by decide,
   c10_key_ignores_directory ⟨"x/a.jpg", "F1"⟩ ⟨"y/A.MOV", "F2"⟩
     (by decide) (by decide) (by decide) (by decide)⟩

theorem pairOf_none_of_len {g : String × List GEntry} (h : g.2.length ≠ 2) :
    pairOf g = none := by
  obtain ⟨k, es⟩ := g
  match es with
  | [] => rfl
  | [e1] => rfl
  | [e1, e2] => exact absurd rfl h
  | e1 :: e2 :: e3 :: rest => rfl

/-- A Pair member is never also emitted as a Single. -/
theorem pair_member_not_single (files : List FInfo) {pv : FInfo × FInfo}
    (hpv : pv ∈ (groupFiles files).1) {x : FInfo} (hx : x = pv.1 ∨ x = pv.2) :
    x ∉ (groupFiles files).2 := by
  have hinv := ginv_groupByBasename files
  have hcl : groupFiles files =
      ((groupByBasename files).filterMap pairOf,
       ((groupByBasename files).map singlesOf).flatten) := classifyGroups_eq _
  obtain ⟨g, hg, hgpv⟩ := List.mem_filterMap.mp (by rw [hcl] at hpv; exact hpv)
  obtain ⟨hs1, hs2, hsingles⟩ := pairOf_stem hinv hg hgpv
  intro hxs
  obtain ⟨l, hl, hsl⟩ := List.mem_flatten.mp (by rw [hcl] at hxs; exact hxs)
  obtain ⟨g', hg', hge⟩ := List.mem_map.mp hl
  rw [← hge] at hsl
  have hst : stemKey x = g'.1 := singlesOf_stem hinv hg' hsl
  have hkey : g.1 = g'.1 := by
    rcases hx with hx | hx
    · rw [← hs1, ← hx]
      exact hst
    · rw [← hs2, ← hx]
      exact hst
  have hgg : g = g' := group_eq_of_key hinv.nodup hg hg' hkey
  rw [← hgg, hsingles] at hsl
  cases hsl

/-- Claim C4: bucket classification: a size-2 bucket with one image-class
and one video-class extension yields exactly one Pair with the image member
first; a size-2 bucket otherwise yields its two members as Singles; buckets
of any other size yield all members as Singles; and no file occurs both in
a Pair and as a Single. -/
theorem c4_bucket_classification (files : List FInfo) :
    (∀ p ∈ groupByBasename files, ∀ e1 e2 : GEntry, p.2 = [e1, e2] →
      ((e1.2 ∈ photo_exts ∧ e2.2 ∈ video_exts →
          (e1.1, e2.1) ∈ (groupFiles files).1) ∧
       (e1.2 ∈ video_exts ∧ e2.2 ∈ photo_exts →
          (e2.1, e1.1) ∈ (groupFiles files).1) ∧
       (is_pair e1.2 e2.2 = false →
          e1.1 ∈ (groupFiles files).2 ∧ e2.1 ∈ (groupFiles files).2))) ∧
    (∀ p ∈ groupByBasename files, p.2.length ≠ 2 →
      ∀ e ∈ p.2, e.1 ∈ (groupFiles files).2) ∧
    (∀ pv ∈ (groupFiles files).1,
      pv.1 ∉ (groupFiles files).2 ∧ pv.2 ∉ (groupFiles files).2) := by
  have hcl : groupFiles files =
      ((groupByBasename files).filterMap pairOf,
       ((groupByBasename files).map singlesOf).flatten) := classifyGroups_eq _
  have hsingle : ∀ p ∈ groupByBasename files, ∀ x : FInfo, x ∈ singlesOf p →
      x ∈ (groupFiles files).2 := by
    intro p hp x hx
    rw [hcl]
    exact List.mem_flatten.mpr ⟨singlesOf p, List.mem_map_of_mem _ hp, hx⟩
  refine ⟨?_, ?_, ?_⟩
  · rintro ⟨k, es⟩ hp e1 e2 hp2
    simp only at hp2
    subst hp2
    refine ⟨?_, ?_, ?_⟩
    · rintro ⟨h1, h2⟩
      have hip : is_pair e1.2 e2.2 = true := by
        simp only [is_pair, List.elem_iff.mpr h1, List.elem_iff.mpr h2,
          Bool.and_self, Bool.true_and, Bool.true_or]
      have hnv : video_exts.contains e1.2 = false := by
        rcases hcv : video_exts.contains e1.2 with _ | _
        · rfl
        · exact absurd (List.elem_iff.mp hcv) (photo_not_video _ h1)
      have hpo : pairOf (k, [e1, e2]) = some (e1.1, e2.1) := by
        simp only [pairOf, hip, if_true, hnv, Bool.false_eq_true, if_false]
      rw [hcl]
      exact List.mem_filterMap.mpr ⟨(k, [e1, e2]), hp, hpo⟩
    · rintro ⟨h1, h2⟩
      have hip : is_pair e1.2 e2.2 = true := by
        simp only [is_pair, List.elem_iff.mpr h1, List.elem_iff.mpr h2,
          Bool.and_self, Bool.true_and, Bool.or_true, Bool.and_true]
      have hv : video_exts.contains e1.2 = true := List.elem_iff.mpr h1
      have hpo : pairOf (k, [e1, e2]) = some (e2.1, e1.1) := by
        simp only [pairOf, hip, if_true, hv]
      rw [hcl]
      exact List.mem_filterMap.mpr ⟨(k, [e1, e2]), hp, hpo⟩
    · intro hnp
      have hso : singlesOf (k, [e1, e2]) = [e1.1, e2.1] := by
        simp only [singlesOf, hnp, Bool.false_eq_true, if_false]
      constructor
      · exact hsingle _ hp _ (by rw [hso]; simp)
      · exact hsingle _ hp _ (by rw [hso]; simp)
  · intro p hp hlen e he
    exact hsingle p hp e.1 (singlesOf_entry (pairOf_none_of_len hlen) he)
  · intro pv hpv
    exact ⟨pair_member_not_single files hpv (Or.inl rfl),
           pair_member_not_single files hpv (Or.inr rfl)⟩

/-- Witness for C4: the bucket of stem `a` with `.jpg` and `.mov` members
yields the Pair with the image first. -/
theorem c4_bucket_classification_witness :
    ((⟨"a.jpg", "A"⟩ : FInfo), (⟨"a.mov", "B"⟩ : FInfo)) ∈
      (groupFiles [⟨"a.jpg", "A"⟩, ⟨"a.mov", "B"⟩]).1 :=
  ((c4_bucket_classification [⟨"a.jpg", "A"⟩, ⟨"a.mov", "B"⟩]).1
    ("a", [((⟨"a.jpg", "A"⟩ : FInfo), ".jpg"), ((⟨"a.mov", "B"⟩ : FInfo), ".mov")])
    (by decide) ((⟨"a.jpg", "A"⟩ : FInfo), ".jpg")
    ((⟨"a.mov", "B"⟩ : FInfo), ".mov") rfl).1 ⟨by decide, by decide⟩

/-- Every candidate file ends up in some scheduled batch. -/
theorem mem_batch_of_mem_files (files : List FInfo) {f : FInfo} (hf : f ∈ files) :
    ∃ b ∈ scheduleBatches files, f ∈ b := by
  have hbridge : scheduleBatches files =
      (makeUnitBatches (unitsOf (groupFiles files).1 (groupFiles files).2)).map
        List.flatten := by
    rw [scheduleBatches_def]
    exact makeBatches_eq_flatten _ _
  set units := unitsOf (groupFiles files).1 (groupFiles files).2 with hunits
  have hflat := (makeUnitBatches_props units).2.1
  obtain ⟨u, hu, hfu⟩ := List.mem_flatten.mp (mem_flatten_unitsOf files f hf)
  obtain ⟨ub, hub, huu⟩ := List.mem_flatten.mp (by rw [hflat]; exact hu)
  refine ⟨ub.flatten, ?_, List.mem_flatten.mpr ⟨u, huu, hfu⟩⟩
  rw [hbridge]
  exact List.mem_map_of_mem _ hub

/-- Claim C5: every scanned candidate is untracked, and a second scan over
the same traversal result after a fully successful run yields no candidates. -/
theorem c5_scan_exclusion_idempotence (found : List String)
    (rel? : String → Option String) (recs : DBState) (ok : Nat → Bool)
    (now : Nat) (hok : ∀ i, ok i = true) :
    (∀ f ∈ scan_source_directory found rel? recs,
      is_processed recs f.rel = false) ∧
    scan_source_directory found rel?
      (run_processor ok now (scan_source_directory found rel? recs) recs).1 = [] := by
  constructor
  · intro f hf
    obtain ⟨fp, hfp, hsome⟩ := List.mem_filterMap.mp hf
    cases hrel : rel? fp with
    | none => rw [hrel] at hsome; cases hsome
    | some r =>
      rw [hrel] at hsome
      by_cases hip : is_processed recs r
      · simp [hip] at hsome
      · simp only [hip, Bool.false_eq_true, if_false, Option.some.injEq] at hsome
        rw [← hsome]
        simpa using hip
  · set files := scan_source_directory found rel? recs with hfiles
    by_cases hfe : files = []
    · have hrp : (run_processor ok now files recs).1 = recs := by
        rw [hfe]
        rfl
      rw [hrp, ← hfiles]
      exact hfe
    · have hE : files.isEmpty = false := by simpa [List.isEmpty_iff] using hfe
      have hrp : (run_processor ok now files recs).1 =
          (scheduleBatches files).foldl (recordBatch now) recs := by
        unfold run_processor process_files
        simp only [hE, Bool.false_eq_true, if_false]
        exact execLoop_allok_recs ok now hok _ 0 recs
      rw [hrp]
      refine List.filterMap_eq_nil_iff.mpr ?_
      intro fp hfp
      cases hrel : rel? fp with
      | none => simp [scan_source_directory, hrel]
      | some r =>
        simp only [scan_source_directory, hrel]
        have hmem : r ∈ pathsOf ((scheduleBatches files).foldl (recordBatch now) recs) := by
          rw [mem_pathsOf_foldl_recordBatch]
          by_cases hip : is_processed recs r
          · exact Or.inl ((is_processed_iff recs r).mp hip)
          · have hfm : (⟨r, fp⟩ : FInfo) ∈ files := by
              rw [hfiles]
              refine List.mem_filterMap.mpr ⟨fp, hfp, ?_⟩
              simp only [hrel]
              show (if is_processed recs r = true then none
                    else some (⟨r, fp⟩ : FInfo)) = some (⟨r, fp⟩ : FInfo)
              rw [if_neg hip]
            obtain ⟨b, hb, hfb⟩ := mem_batch_of_mem_files files hfm
            exact Or.inr ⟨b, hb, List.mem_map_of_mem _ hfb⟩
        rw [if_pos ((is_processed_iff _ r).mpr hmem)]

/-- Witness for C5 at a one-file source tree. -/
theorem c5_scan_exclusion_idempotence_witness :
    (∀ f ∈ scan_source_directory ["/src/a.jpg"]
        (fun s => if s = "/src/a.jpg" then some "a.jpg" else none) [],
      is_processed [] f.rel = false) ∧
    scan_source_directory ["/src/a.jpg"]
      (fun s => if s = "/src/a.jpg" then some "a.jpg" else none)
      (run_processor (fun _ => true) 7
        (scan_source_directory ["/src/a.jpg"]
          (fun s => if s = "/src/a.jpg" then some "a.jpg" else none) [])
        []).1 = [] :=
  c5_scan_exclusion_idempotence ["/src/a.jpg"]
    (fun s => if s = "/src/a.jpg" then some "a.jpg" else none) [] (fun _ => true)
    7 (fun _ => rfl)

end GPP
